import Mathlib

/-!
# A* planner interface (`include/navigation/astar_planner.hpp`)

Shallow embedding of the declarations of the planner header: the two
enumerations, the `Node` record, the expansion-direction table and the
signatures of the comparison, hashing and backtracking operations.

The header carries the enumerations and the direction table in full; the
bodies of the member functions live in a translation unit that is not part of
the sources at hand.  Each definition that stands for such a body says so in
its doc comment.

The `float` fields of `Node` are modelled with their special values: NaN and
the two infinities next to the finite values.
-/

namespace navigation

/-! ## Enumerations -/

/-- The enumeration `TreeValue` of the header: two enumerators. -/
inductive TreeValue where
  | FREE
  | OCCUPIED
  deriving DecidableEq, Repr

/-- Integer value of a `TreeValue` enumerator (`FREE = -1`, `OCCUPIED = 1`). -/
def TreeValue.code : TreeValue → Int
  | .FREE => -1
  | .OCCUPIED => 1

/-- The enumeration `PlanningResult` of the header: five enumerators. -/
inductive PlanningResult where
  | COMPLETE
  | GOAL_REACHED
  | INCOMPLETE
  | GOAL_IN_OBSTACLE
  | FAILURE
  deriving DecidableEq, Repr

/-- Integer value of a `PlanningResult` enumerator: the first is given as `0`,
each later one is its predecessor plus one. -/
def PlanningResult.code : PlanningResult → Int
  | .COMPLETE => 0
  | .GOAL_REACHED => 1
  | .INCOMPLETE => 2
  | .GOAL_IN_OBSTACLE => 3
  | .FAILURE => 4

/-! ## Keys and nodes -/

/-- Cell address `octomap::OcTreeKey`: three unsigned 16-bit coordinates,
kept as naturals; `OcTreeKey.valid` states the 16-bit range. -/
structure OcTreeKey where
  k0 : Nat
  k1 : Nat
  k2 : Nat
  deriving DecidableEq, Repr

/-- Range of a 16-bit key: every coordinate is below `2^16`. -/
def OcTreeKey.valid (k : OcTreeKey) : Prop :=
  k.k0 < 65536 ∧ k.k1 < 65536 ∧ k.k2 < 65536

instance (k : OcTreeKey) : Decidable k.valid := by
  unfold OcTreeKey.valid; infer_instance

/-- Key comparison `OcTreeKey::operator==`: all three coordinates match. -/
def OcTreeKey.eq (a b : OcTreeKey) : Bool :=
  a.k0 == b.k0 && a.k1 == b.k1 && a.k2 == b.k2

/-- Key comparison `OcTreeKey::operator!=`: some coordinate differs. -/
def OcTreeKey.ne (a b : OcTreeKey) : Bool :=
  a.k0 != b.k0 || a.k1 != b.k1 || a.k2 != b.k2

/-- A value of the C++ type `float`: not-a-number, one of the two infinities,
or a finite value, given by the rational number it denotes (the two signed
zeros denote the same number and compare equal). -/
inductive FloatVal where
  | nan
  | negInf
  | finite (v : ℚ)
  | posInf
  deriving DecidableEq

/-- Numerals denote finite values. -/
instance (n : Nat) : OfNat FloatVal n := ⟨FloatVal.finite n⟩

/-- The comparison `<` of two `float` values: false as soon as one is NaN. -/
def FloatVal.lt : FloatVal → FloatVal → Bool
  | .finite a, .finite b => decide (a < b)
  | .negInf, .finite _ => true
  | .negInf, .posInf => true
  | .finite _, .posInf => true
  | _, _ => false

/-- The comparison `==` of two `float` values: false as soon as one is NaN. -/
def FloatVal.feq : FloatVal → FloatVal → Bool
  | .finite a, .finite b => decide (a = b)
  | .negInf, .negInf => true
  | .posInf, .posInf => true
  | _, _ => false

/-- The comparison `<=` of two `float` values: less or equal. -/
def FloatVal.le (a b : FloatVal) : Bool := a.lt b || a.feq b

/-- The comparison `>` of two `float` values. -/
def FloatVal.gt (a b : FloatVal) : Bool := b.lt a

/-- Position of a value that is not NaN on the extended rational line. -/
def FloatVal.rank : FloatVal → WithBot (WithTop ℚ)
  | .nan => ⊥
  | .negInf => ⊥
  | .finite v => ((v : WithTop ℚ) : WithBot (WithTop ℚ))
  | .posInf => ((⊤ : WithTop ℚ) : WithBot (WithTop ℚ))

/-- The record `Node` of the header: a key and three `float` fields. -/
structure Node where
  key : OcTreeKey
  total_cost : FloatVal
  cum_dist : FloatVal
  goal_dist : FloatVal
  deriving DecidableEq

/-! ## The expansion table -/

/-- The member `EXPANSION_DIRECTIONS`, entry for entry in source order. -/
def EXPANSION_DIRECTIONS : List (List Int) :=
  [[-1, -1, -1], [-1, -1, 0], [-1, -1, 1], [-1, 0, -1], [-1, 0, 0], [-1, 0, 1], [-1, 1, -1],
   [-1, 1, 0],   [-1, 1, 1],  [0, -1, -1], [0, -1, 0],  [0, -1, 1], [0, 0, -1], [0, 0, 1],
   [0, 1, -1],   [0, 1, 0],   [0, 1, 1],   [1, -1, -1], [1, -1, 0], [1, -1, 1], [1, 0, -1],
   [1, 0, 0],    [1, 0, 1],   [1, 1, -1],  [1, 1, 0],   [1, 1, 1]]

/-- Membership of a component in `{-1, 0, 1}`. -/
def unitComponent (c : Int) : Prop := c = -1 ∨ c = 0 ∨ c = 1

instance (c : Int) : Decidable (unitComponent c) := by
  unfold unitComponent; infer_instance

/-- A vector of the 3×3×3 neighbour cube: exactly three components, each in
`{-1, 0, 1}`. -/
def inCube (v : List Int) : Prop := v.length = 3 ∧ ∀ c ∈ v, unitComponent c

instance (v : List Int) : Decidable (inCube v) := by
  unfold inCube; infer_instance

/-- Componentwise negation of a direction. -/
def negDirection (d : List Int) : List Int := d.map (fun c => -c)

/-- Componentwise scaling of a direction by a step size. -/
def scaleDirection (s : Int) (d : List Int) : List Int := d.map (fun c => s * c)

/-! ## Node comparison -/

/-- Modelled from the spec: the body of `Node::operator==`, declared in the
header and defined elsewhere.  "Equality of two Nodes is defined by key
equality". -/
def Node.eq (a other : Node) : Bool := OcTreeKey.eq a.key other.key

/-- Modelled from the spec: the body of `Node::operator!=`, declared in the
header and defined elsewhere.  Node comparison is key comparison, so this is
key inequality. -/
def Node.ne (a other : Node) : Bool := OcTreeKey.ne a.key other.key

/-- Modelled from the spec: the body of `Node::operator<`, declared in the
header and defined elsewhere.  "ordering is defined by `total_cost` comparison
with `cum_dist` as secondary tie-break"; the comparisons are those of `float`. -/
def Node.lt (a other : Node) : Bool :=
  if a.total_cost.feq other.total_cost then a.cum_dist.lt other.cum_dist
  else a.total_cost.lt other.total_cost

/-- Modelled from the spec: the body of `Node::operator<=`, declared in the
header and defined elsewhere.  Same comparison as `Node.lt`, non-strict. -/
def Node.le (a other : Node) : Bool :=
  if a.total_cost.feq other.total_cost then a.cum_dist.le other.cum_dist
  else a.total_cost.le other.total_cost

/-- Modelled from the spec: the body of `CostComparator::operator()`, declared
in the header and defined elsewhere.  The open set pops the minimum cost and,
"for equal `total_cost`, prefers lower `cum_dist`"; a `std::priority_queue`
pops a greatest element of its comparator, so the comparator is the reversed
node order. -/
def CostComparator (n1 n2 : Node) : Bool :=
  if n1.total_cost.feq n2.total_cost then n1.cum_dist.gt n2.cum_dist
  else n1.total_cost.gt n2.total_cost

/-- The costs a node is ordered by are numbers: neither `total_cost` nor
`cum_dist` is NaN.  The data model gives this for every node of the search:
`total_cost ≥ 0` is its invariant, and `total_cost` is a weighted sum with
`cum_dist` as a term, so a NaN `cum_dist` would make `total_cost` NaN.  On such
nodes the comparator is a strict weak ordering, which is what
`std::priority_queue` asks of its comparator. -/
def Node.ordered (n : Node) : Prop := n.total_cost ≠ FloatVal.nan ∧ n.cum_dist ≠ FloatVal.nan

instance (n : Node) : Decidable n.ordered := by
  unfold Node.ordered; infer_instance

/-- Position of a node in the order of `(total_cost, cum_dist)` pairs, first
component first. -/
def Node.rank (n : Node) : Lex (WithBot (WithTop ℚ) × WithBot (WithTop ℚ)) :=
  toLex (n.total_cost.rank, n.cum_dist.rank)

/-- What `std::priority_queue::top` guarantees of the element `t` it returns
for contents `q` and a comparator `comp` that is a strict weak ordering on
them: it is in the queue and the comparator puts it before no element of the
queue. -/
def isTop (comp : Node → Node → Bool) (q : List Node) (t : Node) : Prop :=
  t ∈ q ∧ ∀ x ∈ q, comp t x = false

/-- A linear scan for the queue top: keep the best element seen so far and
replace it whenever the comparator puts it before the next one. -/
def priorityTop (comp : Node → Node → Bool) : List Node → Option Node
  | [] => none
  | x :: xs => some (xs.foldl (fun best y => if comp best y then y else best) x)

/-! ## Hashing -/

/-- The hash value the unordered containers receive from a hasher of the
declared type `bool operator()(const Node &) const`: the boolean converted to
`size_t`. -/
def hashValue (HashFunction : Node → Bool) (n : Node) : Nat :=
  if HashFunction n then 1 else 0

/-! ## Expansion -/

/-- Modelled from the spec: the body of `AstarPlanner::expand`, declared in the
header and defined elsewhere.  The successor address lies "along" the given
direction: the direction is added to the key coordinate by coordinate, in
integers, and stored back into the 16-bit coordinates. -/
def expand (key : OcTreeKey) (direction : List Int) : OcTreeKey :=
  { k0 := (((key.k0 : Int) + direction.getD 0 0) % 65536).toNat
    k1 := (((key.k1 : Int) + direction.getD 1 0) % 65536).toNat
    k2 := (((key.k2 : Int) + direction.getD 2 0) % 65536).toNat }

/-- Neighbour relation of the expansion with one step size `s` for all cells:
`k2` is the successor of `k1` along some table direction scaled by `s`. -/
def neighbour (s : Int) (k1 k2 : OcTreeKey) : Prop :=
  ∃ d ∈ EXPANSION_DIRECTIONS, k2 = expand k1 (scaleDirection s d)

/-! ## Backtracking -/

/-- The parent map `std::unordered_map<Node, Node, HashFunction>` as its list
of entries `(child, parent)`. -/
abbrev ParentMap := List (Node × Node)

/-- Lookup in the parent map: the key of the parent recorded for the first
entry whose child compares equal (by key) to `k`. -/
def parentKey (pm : ParentMap) (k : OcTreeKey) : Option OcTreeKey :=
  (pm.find? (fun e => OcTreeKey.eq e.1.key k)).map (fun e => e.2.key)

/-- Following parent links `n` times from `k`. -/
def parentIter (pm : ParentMap) : Nat → OcTreeKey → Option OcTreeKey
  | 0, k => some k
  | n + 1, k => (parentKey pm k).bind (parentIter pm n)

/-- Modelled from the spec: the walk inside `AstarPlanner::backtrackPathKeys`,
declared in the header and defined elsewhere.  It "walks the parent map from
the terminal key back to the start key", collecting the keys it passes,
terminal key first; it fails when a key has no parent entry or when the walk
has taken `fuel` links without meeting the start key. -/
def backtrackWalk (pm : ParentMap) (start : OcTreeKey) : Nat → OcTreeKey → Option (List OcTreeKey)
  | 0, current => if OcTreeKey.eq current start then some [current] else none
  | fuel + 1, current =>
    if OcTreeKey.eq current start then some [current]
    else match parentKey pm current with
      | none => none
      | some p => (backtrackWalk pm start fuel p).map (fun ks => current :: ks)

/-- Modelled from the spec: the body of `AstarPlanner::backtrackPathKeys`,
declared in the header and defined elsewhere.  The walk from the terminal key
is given as many links as the parent map has entries (a chain that reaches the
start never needs more), its key sequence is reversed into start-first order,
and a failed walk "returns empty". -/
def backtrackPathKeys (start endNode : Node) (parent_map : ParentMap) : List OcTreeKey :=
  match backtrackWalk parent_map start.key parent_map.length endNode.key with
  | none => []
  | some ks => ks.reverse

/-! ## Theorems: enumerations -/

/-- C6: every value of the result type of `findPath` is one of the five
outcomes COMPLETE, GOAL_REACHED, INCOMPLETE, GOAL_IN_OBSTACLE, FAILURE (so the
outcome of any function with the declared signature is), their integer codes
are 0, 1, 2, 3, 4 in that order, and distinct outcomes have distinct codes. -/
theorem planningResult_five_outcomes :
    (∀ (Input Point : Type) (findPath : Input → List Point × PlanningResult) (x : Input),
        (findPath x).2 ∈ [PlanningResult.COMPLETE, PlanningResult.GOAL_REACHED,
          PlanningResult.INCOMPLETE, PlanningResult.GOAL_IN_OBSTACLE, PlanningResult.FAILURE])
    ∧ [PlanningResult.COMPLETE, PlanningResult.GOAL_REACHED, PlanningResult.INCOMPLETE,
        PlanningResult.GOAL_IN_OBSTACLE, PlanningResult.FAILURE].map PlanningResult.code
        = [0, 1, 2, 3, 4]
    ∧ [PlanningResult.COMPLETE, PlanningResult.GOAL_REACHED, PlanningResult.INCOMPLETE,
        PlanningResult.GOAL_IN_OBSTACLE, PlanningResult.FAILURE].Nodup
    ∧ ∀ r1 r2 : PlanningResult, r1.code = r2.code → r1 = r2 := by
  refine ⟨?_, by decide, by decide, ?_⟩
  · intro Input Point findPath x
    cases (findPath x).2 <;> simp
  · intro r1 r2 h
    cases r1 <;> cases r2 <;> first | rfl | (exact absurd h (by decide))

/-- C8 as stated fails: `TreeValue` has no three pairwise distinct values, so
it cannot hold one value for each of FREE, OCCUPIED and UNKNOWN. -/
theorem treeValue_no_three_states :
    ¬ ∃ a b c : TreeValue, a ≠ b ∧ b ≠ c ∧ a ≠ c := by
  rintro ⟨a, b, c, hab, hbc, hac⟩
  cases a <;> cases b <;> cases c <;> simp at hab hbc hac

/-- C8 amended: `TreeValue` has exactly the two classifications FREE and
OCCUPIED, they are distinct, and their integer codes are -1 and 1. -/
theorem treeValue_two_states :
    (∀ v : TreeValue, v = TreeValue.FREE ∨ v = TreeValue.OCCUPIED)
    ∧ TreeValue.FREE ≠ TreeValue.OCCUPIED
    ∧ TreeValue.FREE.code = -1 ∧ TreeValue.OCCUPIED.code = 1 := by
  refine ⟨?_, by decide, rfl, rfl⟩
  intro v
  cases v <;> simp

/-! ## Theorems: the expansion table -/

/-- Every vector of the neighbour cube other than the zero vector is an entry
of the table. -/
theorem mem_directions_of_inCube (v : List Int) (hv : inCube v) (hz : v ≠ [0, 0, 0]) :
    v ∈ EXPANSION_DIRECTIONS := by
  obtain ⟨hlen, hc⟩ := hv
  match v, hlen with
  | [a, b, c], _ =>
    have ha : unitComponent a := hc a (by simp)
    have hb : unitComponent b := hc b (by simp)
    have hcc : unitComponent c := hc c (by simp)
    rcases ha with rfl | rfl | rfl <;> rcases hb with rfl | rfl | rfl <;>
      rcases hcc with rfl | rfl | rfl <;>
      first
        | exact absurd rfl hz
        | decide

/-- C3: `EXPANSION_DIRECTIONS` is the 26-connected neighbourhood: 26 entries,
each with exactly three components from `{-1, 0, 1}`, none the zero vector,
pairwise distinct, and as a set exactly the non-zero vectors of the cube. -/
theorem expansion_directions_26_connected :
    EXPANSION_DIRECTIONS.length = 26
    ∧ (∀ d ∈ EXPANSION_DIRECTIONS, inCube d)
    ∧ [0, 0, 0] ∉ EXPANSION_DIRECTIONS
    ∧ EXPANSION_DIRECTIONS.Nodup
    ∧ ∀ v : List Int, v ∈ EXPANSION_DIRECTIONS ↔ (inCube v ∧ v ≠ [0, 0, 0]) := by
  have hcube : ∀ d ∈ EXPANSION_DIRECTIONS, inCube d := by decide
  have hzero : [0, 0, 0] ∉ EXPANSION_DIRECTIONS := by decide
  refine ⟨rfl, hcube, hzero, by decide, ?_⟩
  intro v
  constructor
  · intro hv
    exact ⟨hcube v hv, fun h => hzero (h ▸ hv)⟩
  · rintro ⟨hv, hz⟩
    exact mem_directions_of_inCube v hv hz

/-- Undoing a step: adding `x` to a 16-bit coordinate and then adding `-x`,
each time stored back into 16 bits, gives the coordinate back. -/
theorem coordinate_step_back (k : Nat) (x : Int) (hk : k < 65536) :
    ((((((k : Int) + x) % 65536).toNat : Int) + -x) % 65536).toNat = k := by
  omega

/-- Expanding along a scaled table direction and then along the scaled
negated direction returns to the key. -/
theorem expand_negDirection (s : Int) (k : OcTreeKey) (hk : k.valid) (d : List Int) :
    expand (expand k (scaleDirection s d)) (scaleDirection s (negDirection d)) = k := by
  obtain ⟨h0, h1, h2⟩ := hk
  have hneg : ∀ i, (scaleDirection s (negDirection d)).getD i 0
      = -((scaleDirection s d).getD i 0) := by
    intro i
    simp [scaleDirection, negDirection, List.getD_eq_getElem?_getD, List.getElem?_map]
    cases d[i]? <;> simp
  cases k with
  | mk a b c =>
    simp only [expand, hneg] at *
    rw [coordinate_step_back a _ h0, coordinate_step_back b _ h1, coordinate_step_back c _ h2]

/-- C9: `EXPANSION_DIRECTIONS` is closed under negation, the entry at index
`i` is the negation of the entry at index `25 - i`, and with one step size for
all cells the neighbour relation generated by `expand` on 16-bit keys is
symmetric. -/
theorem expansion_directions_negation_closed :
    (∀ d ∈ EXPANSION_DIRECTIONS, negDirection d ∈ EXPANSION_DIRECTIONS)
    ∧ (∀ i, i < 26 →
        EXPANSION_DIRECTIONS[i]? = (EXPANSION_DIRECTIONS[25 - i]?).map negDirection)
    ∧ ∀ (s : Int) (k1 k2 : OcTreeKey), k1.valid → neighbour s k1 k2 → neighbour s k2 k1 := by
  have hclosed : ∀ d ∈ EXPANSION_DIRECTIONS, negDirection d ∈ EXPANSION_DIRECTIONS := by decide
  refine ⟨hclosed, by decide, ?_⟩
  rintro s k1 k2 hk ⟨d, hd, rfl⟩
  exact ⟨negDirection d, hclosed d hd, (expand_negDirection s k1 hk d).symm⟩

/-- C9 at a concrete cell: from key (5, 5, 5) the step of size 2 along
(-1, 0, 1) leads to (3, 5, 7), and (5, 5, 5) is a neighbour of (3, 5, 7). -/
theorem expansion_directions_negation_closed_witness :
    neighbour 2 ⟨5, 5, 5⟩ ⟨3, 5, 7⟩ ∧ neighbour 2 ⟨3, 5, 7⟩ ⟨5, 5, 5⟩ :=
  have h : neighbour 2 ⟨5, 5, 5⟩ ⟨3, 5, 7⟩ := ⟨[-1, 0, 1], by decide, by decide⟩
  ⟨h, expansion_directions_negation_closed.2.2 2 ⟨5, 5, 5⟩ ⟨3, 5, 7⟩ (by decide) h⟩

/-! ## Theorems: hashing -/

/-- C10: a hasher of the declared type returns a bool, so its hash values are
among 0 and 1; of any three Nodes two receive the same hash, and some two
Nodes with different keys collide. -/
theorem hashFunction_two_values (HashFunction : Node → Bool) :
    (∀ n : Node, hashValue HashFunction n = 0 ∨ hashValue HashFunction n = 1)
    ∧ (∀ a b c : Node, hashValue HashFunction a = hashValue HashFunction b
        ∨ hashValue HashFunction b = hashValue HashFunction c
        ∨ hashValue HashFunction a = hashValue HashFunction c)
    ∧ ∃ a b : Node, a.key ≠ b.key ∧ hashValue HashFunction a = hashValue HashFunction b := by
  have h2 : ∀ n : Node, hashValue HashFunction n = 0 ∨ hashValue HashFunction n = 1 := by
    intro n
    unfold hashValue
    cases HashFunction n <;> simp
  have h3 : ∀ a b c : Node, hashValue HashFunction a = hashValue HashFunction b
        ∨ hashValue HashFunction b = hashValue HashFunction c
        ∨ hashValue HashFunction a = hashValue HashFunction c := by
    intro a b c
    rcases h2 a with ha | ha <;> rcases h2 b with hb | hb <;> rcases h2 c with hc | hc <;>
      simp [ha, hb, hc]
  refine ⟨h2, h3, ?_⟩
  let n0 : Node := ⟨⟨0, 0, 0⟩, 0, 0, 0⟩
  let n1 : Node := ⟨⟨1, 0, 0⟩, 0, 0, 0⟩
  let n2 : Node := ⟨⟨2, 0, 0⟩, 0, 0, 0⟩
  rcases h3 n0 n1 n2 with h | h | h
  · exact ⟨n0, n1, by decide, h⟩
  · exact ⟨n1, n2, by decide, h⟩
  · exact ⟨n0, n2, by decide, h⟩

/-! ## Theorems: node comparison -/

/-- Key comparison decides equality of keys. -/
theorem OcTreeKey.eq_iff (a b : OcTreeKey) : OcTreeKey.eq a b = true ↔ a = b := by
  cases a; cases b
  simp [OcTreeKey.eq, and_assoc]

/-- Key inequality is the negation of key comparison. -/
theorem OcTreeKey.ne_eq_not_eq (a b : OcTreeKey) : OcTreeKey.ne a b = !OcTreeKey.eq a b := by
  simp only [OcTreeKey.ne, OcTreeKey.eq, bne, Bool.not_and]

/-- C4: `a == b` holds exactly when the three key coordinates match, that is
when the keys are equal; the cost fields play no part; and `a != b` is the
negation of `a == b`. -/
theorem node_eq_iff_key (a b : Node) :
    (Node.eq a b = true ↔ (a.key.k0 = b.key.k0 ∧ a.key.k1 = b.key.k1 ∧ a.key.k2 = b.key.k2))
    ∧ (Node.eq a b = true ↔ a.key = b.key)
    ∧ (∀ t1 c1 g1 t2 c2 g2 : FloatVal,
        Node.eq ⟨a.key, t1, c1, g1⟩ ⟨b.key, t2, c2, g2⟩ = Node.eq a b)
    ∧ Node.ne a b = !Node.eq a b := by
  refine ⟨?_, OcTreeKey.eq_iff a.key b.key, fun _ _ _ _ _ _ => rfl,
    OcTreeKey.ne_eq_not_eq a.key b.key⟩
  simp [Node.eq, OcTreeKey.eq, and_assoc]

/-- On values that are not NaN, `<` is the order of the extended rational
line. -/
theorem FloatVal.lt_iff_rank_lt (a b : FloatVal) (ha : a ≠ .nan) (hb : b ≠ .nan) :
    a.lt b = true ↔ a.rank < b.rank := by
  cases a <;> cases b <;>
    simp_all [FloatVal.lt, FloatVal.rank, WithBot.bot_lt_coe, lt_top_iff_ne_top]

/-- On values that are not NaN, `==` is equality on the extended rational
line. -/
theorem FloatVal.feq_iff_rank_eq (a b : FloatVal) (ha : a ≠ .nan) (hb : b ≠ .nan) :
    a.feq b = true ↔ a.rank = b.rank := by
  cases a <;> cases b <;> simp_all [FloatVal.feq, FloatVal.rank]

/-- The comparison `==` is symmetric, NaN included. -/
theorem FloatVal.feq_comm (a b : FloatVal) : a.feq b = b.feq a := by
  cases a <;> cases b <;> simp [FloatVal.feq, eq_comm]

/-- Values that compare equal are not strictly ordered. -/
theorem FloatVal.lt_false_of_feq (a b : FloatVal) (h : a.feq b = true) : a.lt b = false := by
  cases a <;> cases b <;> simp_all [FloatVal.feq, FloatVal.lt]

/-- The strict node order in terms of the float comparisons of the fields. -/
theorem Node.lt_iff (a b : Node) :
    Node.lt a b = true ↔
      (a.total_cost.lt b.total_cost = true
        ∨ (a.total_cost.feq b.total_cost = true ∧ a.cum_dist.lt b.cum_dist = true)) := by
  unfold Node.lt
  cases h : a.total_cost.feq b.total_cost
  · simp
  · simp [FloatVal.lt_false_of_feq _ _ h]

/-- The non-strict node order in terms of the float comparisons of the fields. -/
theorem Node.le_iff (a b : Node) :
    Node.le a b = true ↔
      (a.total_cost.lt b.total_cost = true
        ∨ (a.total_cost.feq b.total_cost = true ∧ a.cum_dist.le b.cum_dist = true)) := by
  unfold Node.le
  cases h : a.total_cost.feq b.total_cost
  · simp [FloatVal.le, h]
  · simp [FloatVal.lt_false_of_feq _ _ h]

/-- The comparator is the reversed strict node order. -/
theorem CostComparator_eq_lt (a b : Node) : CostComparator a b = Node.lt b a := by
  unfold CostComparator Node.lt FloatVal.gt
  rw [FloatVal.feq_comm]

/-- On nodes whose costs are numbers the strict node order is the order of
their ranks. -/
theorem Node.lt_iff_rank (a b : Node) (ha : a.ordered) (hb : b.ordered) :
    Node.lt a b = true ↔ a.rank < b.rank := by
  rw [Node.lt_iff, FloatVal.lt_iff_rank_lt _ _ ha.1 hb.1, FloatVal.feq_iff_rank_eq _ _ ha.1 hb.1,
    FloatVal.lt_iff_rank_lt _ _ ha.2 hb.2]
  simp [Node.rank, Prod.Lex.lt_iff]

/-- On nodes whose costs are numbers the non-strict node order is the order of
their ranks. -/
theorem Node.le_iff_rank (a b : Node) (ha : a.ordered) (hb : b.ordered) :
    Node.le a b = true ↔ a.rank ≤ b.rank := by
  rw [Node.le_iff, FloatVal.lt_iff_rank_lt _ _ ha.1 hb.1, FloatVal.feq_iff_rank_eq _ _ ha.1 hb.1]
  simp only [FloatVal.le, Bool.or_eq_true, FloatVal.lt_iff_rank_lt _ _ ha.2 hb.2,
    FloatVal.feq_iff_rank_eq _ _ ha.2 hb.2]
  rw [Node.rank, Node.rank, Prod.Lex.le_iff, ← le_iff_lt_or_eq]

/-- On nodes whose costs are numbers the comparator holds exactly when the
second node ranks strictly below the first. -/
theorem CostComparator_iff_rank (a b : Node) (ha : a.ordered) (hb : b.ordered) :
    CostComparator a b = true ↔ b.rank < a.rank := by
  rw [CostComparator_eq_lt, Node.lt_iff_rank b a hb ha]

/-- The linear scan ends on an element of the queue that the comparator puts
before nothing seen. -/
theorem scan_isTop (xs : List Node) :
    ∀ (best : Node) (seen : List Node), best ∈ seen →
      (∀ x ∈ seen ++ xs, x.ordered) →
      (∀ x ∈ seen, CostComparator best x = false) →
      isTop CostComparator (seen ++ xs)
        (xs.foldl (fun best y => if CostComparator best y then y else best) best) := by
  induction xs with
  | nil =>
    intro best seen hmem _ hall
    simpa [isTop] using ⟨hmem, hall⟩
  | cons y ys ih =>
    intro best seen hmem hord hall
    have hrw : seen ++ y :: ys = (seen ++ [y]) ++ ys := by simp
    rw [hrw] at hord ⊢
    rw [List.foldl_cons]
    have hb : best.ordered := hord best (by simp [hmem])
    have hy : y.ordered := hord y (by simp)
    by_cases hc : CostComparator best y = true
    · rw [if_pos hc]
      apply ih y (seen ++ [y]) (by simp) hord
      intro x hx
      rcases List.mem_append.1 hx with hx | hx
      · have hxo : x.ordered := hord x (by simp [hx])
        have h1 := (CostComparator_iff_rank best y hb hy).1 hc
        have h2 : ¬ x.rank < best.rank := by
          rw [← CostComparator_iff_rank best x hb hxo]; simp [hall x hx]
        have h3 : ¬ x.rank < y.rank := fun h => h2 (h.trans h1)
        rw [← CostComparator_iff_rank y x hy hxo] at h3
        simpa using h3
      · have : x = y := by simpa using hx
        rw [this]
        have h3 : ¬ y.rank < y.rank := lt_irrefl _
        rw [← CostComparator_iff_rank y y hy hy] at h3
        simpa using h3
    · rw [if_neg hc]
      apply ih best (seen ++ [y]) (by simp [hmem]) hord
      intro x hx
      rcases List.mem_append.1 hx with hx | hx
      · exact hall x hx
      · have : x = y := by simpa using hx
        rw [this]; simpa using hc

/-- C5: `a < b` holds exactly when `a.total_cost < b.total_cost`, or the total
costs are equal and `a.cum_dist < b.cum_dist`; `a <= b` likewise with `<=` on
the tie-break (both for all Nodes, NaN and infinite costs included, with the
float comparisons `<`, `<=`, `==`); the comparator is the reversed strict
order, so no node of a priority queue is below its top and none with equal
`total_cost` has a lower `cum_dist` (again for all Nodes); and when the nodes
of the queue carry no NaN in `total_cost` or `cum_dist`, the top is at most
every node of the queue, among equal `total_cost` its `cum_dist` is the lowest,
and a non-empty queue has a top. -/
theorem node_order_and_queue_top :
    (∀ a b : Node, Node.lt a b = true ↔
      (a.total_cost.lt b.total_cost = true
        ∨ (a.total_cost.feq b.total_cost = true ∧ a.cum_dist.lt b.cum_dist = true)))
    ∧ (∀ a b : Node, Node.le a b = true ↔
      (a.total_cost.lt b.total_cost = true
        ∨ (a.total_cost.feq b.total_cost = true ∧ a.cum_dist.le b.cum_dist = true)))
    ∧ (∀ a b : Node, CostComparator a b = Node.lt b a)
    ∧ (∀ (q : List Node) (t : Node), isTop CostComparator q t →
        ∀ x ∈ q, Node.lt x t = false
          ∧ (x.total_cost.feq t.total_cost = true → x.cum_dist.lt t.cum_dist = false))
    ∧ (∀ (q : List Node) (t : Node), (∀ x ∈ q, x.ordered) → isTop CostComparator q t →
        ∀ x ∈ q, Node.le t x = true
          ∧ (x.total_cost.feq t.total_cost = true → t.cum_dist.le x.cum_dist = true))
    ∧ (∀ q : List Node, q ≠ [] → (∀ x ∈ q, x.ordered) →
        ∃ t, priorityTop CostComparator q = some t ∧ isTop CostComparator q t) := by
  refine ⟨Node.lt_iff, Node.le_iff, CostComparator_eq_lt, ?_, ?_, ?_⟩
  · intro q t ht x hx
    have hlt : Node.lt x t = false := by
      rw [← CostComparator_eq_lt]; exact ht.2 x hx
    refine ⟨hlt, fun heq => ?_⟩
    cases hcd : x.cum_dist.lt t.cum_dist with
    | false => rfl
    | true =>
      have := (Node.lt_iff x t).2 (Or.inr ⟨heq, hcd⟩)
      rw [hlt] at this
      exact absurd this (by simp)
  · intro q t hord ht x hx
    have hc := ht.2 x hx
    have hto := hord t ht.1
    have hxo := hord x hx
    have hn : ¬ x.rank < t.rank := by
      rw [← CostComparator_iff_rank t x hto hxo]; simp [hc]
    have hle : Node.le t x = true := (Node.le_iff_rank t x hto hxo).2 (not_lt.1 hn)
    refine ⟨hle, fun heq => ?_⟩
    rcases (Node.le_iff t x).1 hle with h | h
    · rw [FloatVal.feq_comm] at heq
      rw [FloatVal.lt_false_of_feq _ _ heq] at h
      exact absurd h (by simp)
    · exact h.2
  · intro q hq hord
    cases q with
    | nil => exact absurd rfl hq
    | cons y ys =>
      refine ⟨_, rfl, ?_⟩
      have hy : y.ordered := hord y (by simp)
      have := scan_isTop ys y [y] (by simp) (by simpa using hord)
        (fun x hx => by
          have : x = y := by simpa using hx
          rw [this]
          have h3 : ¬ y.rank < y.rank := lt_irrefl _
          rw [← CostComparator_iff_rank y y hy hy] at h3
          simpa using h3)
      simpa using this

/-- C5 on a concrete queue: of three nodes, two with total cost 4, the top is
the one with total cost 4 and the lower `cum_dist`, and it is at most every
node of the queue. -/
theorem node_order_and_queue_top_witness :
    (∀ x ∈ ([⟨⟨0, 0, 0⟩, 5, 2, 3⟩, ⟨⟨1, 0, 0⟩, 4, 3, 1⟩, ⟨⟨0, 1, 0⟩, 4, 1, 3⟩] : List Node),
        x.ordered)
    ∧ isTop CostComparator
      [⟨⟨0, 0, 0⟩, 5, 2, 3⟩, ⟨⟨1, 0, 0⟩, 4, 3, 1⟩, ⟨⟨0, 1, 0⟩, 4, 1, 3⟩] ⟨⟨0, 1, 0⟩, 4, 1, 3⟩
    ∧ ∀ x ∈ ([⟨⟨0, 0, 0⟩, 5, 2, 3⟩, ⟨⟨1, 0, 0⟩, 4, 3, 1⟩, ⟨⟨0, 1, 0⟩, 4, 1, 3⟩] : List Node),
        Node.le ⟨⟨0, 1, 0⟩, 4, 1, 3⟩ x = true
          ∧ (x.total_cost.feq 4 = true → FloatVal.le 1 x.cum_dist = true) :=
  have ho : ∀ x ∈ ([⟨⟨0, 0, 0⟩, 5, 2, 3⟩, ⟨⟨1, 0, 0⟩, 4, 3, 1⟩, ⟨⟨0, 1, 0⟩, 4, 1, 3⟩] : List Node),
      x.ordered := by
    intro x hx
    simp only [List.mem_cons, List.mem_singleton, List.not_mem_nil, or_false] at hx
    rcases hx with rfl | rfl | rfl <;> exact ⟨(by intro h; cases h), (by intro h; cases h)⟩
  have h : isTop CostComparator
      [⟨⟨0, 0, 0⟩, 5, 2, 3⟩, ⟨⟨1, 0, 0⟩, 4, 3, 1⟩, ⟨⟨0, 1, 0⟩, 4, 1, 3⟩]
      ⟨⟨0, 1, 0⟩, 4, 1, 3⟩ := by
    constructor
    · simp
    · intro x hx
      simp only [List.mem_cons, List.mem_singleton, List.not_mem_nil, or_false] at hx
      rcases hx with rfl | rfl | rfl <;>
        norm_num [CostComparator, FloatVal.feq, FloatVal.gt, FloatVal.lt, OfNat.ofNat]
  ⟨ho, h, node_order_and_queue_top.2.2.2.2.1 _ _ ho h⟩

/-- Why the second queue statement asks for costs that are numbers: a node
whose `total_cost` is NaN is put before nothing by the comparator, so no node
is below it, yet `<=` from it to a node of cost 1 is false. -/
theorem nan_top_not_le :
    isTop CostComparator [⟨⟨0, 0, 0⟩, FloatVal.nan, 0, 0⟩, ⟨⟨1, 0, 0⟩, 1, 1, 0⟩]
        ⟨⟨0, 0, 0⟩, FloatVal.nan, 0, 0⟩
    ∧ Node.le ⟨⟨0, 0, 0⟩, FloatVal.nan, 0, 0⟩ ⟨⟨1, 0, 0⟩, 1, 1, 0⟩ = false := by
  refine ⟨⟨by simp, ?_⟩, ?_⟩
  · intro x hx
    simp only [List.mem_cons, List.mem_singleton, List.not_mem_nil, or_false] at hx
    rcases hx with rfl | rfl <;>
      simp [CostComparator, FloatVal.feq, FloatVal.gt, FloatVal.lt, OfNat.ofNat]
  · simp [Node.le, FloatVal.feq, FloatVal.le, FloatVal.lt, OfNat.ofNat]


/-! ## Theorems: backtracking -/

/-- A successful lookup names a child key of the map. -/
theorem parentKey_dom (pm : ParentMap) (k p : OcTreeKey) (h : parentKey pm k = some p) :
    k ∈ pm.map (fun e => e.1.key) := by
  unfold parentKey at h
  cases hf : pm.find? (fun e => OcTreeKey.eq e.1.key k) with
  | none => simp [hf] at h
  | some e =>
    have hmem := List.mem_of_find?_eq_some hf
    have hk := List.find?_some hf
    have hk2 : e.1.key = k := (OcTreeKey.eq_iff _ _).1 hk
    exact List.mem_map.2 ⟨e, hmem, hk2⟩

/-- Unfolding of the walk at the start key. -/
theorem backtrackWalk_start (pm : ParentMap) (s : OcTreeKey) (f : Nat) :
    backtrackWalk pm s f s = some [s] := by
  have h : OcTreeKey.eq s s = true := (OcTreeKey.eq_iff s s).2 rfl
  cases f <;> simp [backtrackWalk, h]

/-- Unfolding of the walk away from the start key. -/
theorem backtrackWalk_step (pm : ParentMap) (s k : OcTreeKey) (f : Nat) (hk : k ≠ s) :
    backtrackWalk pm s (f + 1) k
      = (parentKey pm k).bind
          (fun p => (backtrackWalk pm s f p).map (fun ks => k :: ks)) := by
  have h : OcTreeKey.eq k s = false := by
    cases hh : OcTreeKey.eq k s with
    | false => rfl
    | true => exact absurd ((OcTreeKey.eq_iff k s).1 hh) hk
  rw [backtrackWalk]
  simp only [h]
  cases parentKey pm k <;> simp

/-- Without fuel the walk succeeds only at the start key. -/
theorem backtrackWalk_zero (pm : ParentMap) (s k : OcTreeKey) (hk : k ≠ s) :
    backtrackWalk pm s 0 k = none := by
  have h : OcTreeKey.eq k s = false := by
    cases hh : OcTreeKey.eq k s with
    | false => rfl
    | true => exact absurd ((OcTreeKey.eq_iff k s).1 hh) hk
  simp [backtrackWalk, h]

/-- A walk that succeeds is either at the start or goes through the parent. -/
theorem backtrackWalk_cases (pm : ParentMap) (s k : OcTreeKey) (f : Nat) (l : List OcTreeKey)
    (h : backtrackWalk pm s f k = some l) :
    (k = s ∧ l = [s]) ∨
    (k ≠ s ∧ ∃ g p l2, f = g + 1 ∧ parentKey pm k = some p
        ∧ backtrackWalk pm s g p = some l2 ∧ l = k :: l2) := by
  by_cases hk : k = s
  · subst hk
    rw [backtrackWalk_start] at h
    exact Or.inl ⟨rfl, (Option.some.inj h).symm⟩
  · right
    refine ⟨hk, ?_⟩
    cases f with
    | zero => rw [backtrackWalk_zero pm s k hk] at h; exact absurd h (by simp)
    | succ g =>
      rw [backtrackWalk_step pm s k g hk] at h
      cases hp : parentKey pm k with
      | none => simp [hp] at h
      | some p =>
        rw [hp] at h
        simp only [Option.some_bind, Option.map_eq_some'] at h
        obtain ⟨l2, hl2, rfl⟩ := h
        exact ⟨g, p, l2, rfl, rfl, hl2, rfl⟩

/-- More fuel does not change a successful walk. -/
theorem backtrackWalk_mono (pm : ParentMap) (s : OcTreeKey) :
    ∀ (f g : Nat) (k : OcTreeKey) (l : List OcTreeKey), f ≤ g →
      backtrackWalk pm s f k = some l → backtrackWalk pm s g k = some l := by
  intro f
  induction f with
  | zero =>
    intro g k l _ h
    rcases backtrackWalk_cases pm s k 0 l h with ⟨rfl, rfl⟩ | ⟨_, g2, _, _, hf, _⟩
    · exact backtrackWalk_start pm k g
    · omega
  | succ f ih =>
    intro g k l hfg h
    rcases backtrackWalk_cases pm s k (f + 1) l h with ⟨rfl, rfl⟩ | ⟨hk, g2, p, l2, hf, hp, hw, rfl⟩
    · exact backtrackWalk_start pm k g
    · have hg2 : g2 = f := by omega
      subst hg2
      obtain ⟨g3, rfl⟩ : ∃ g3, g = g3 + 1 := ⟨g - 1, by omega⟩
      rw [backtrackWalk_step pm s k g3 hk, hp]
      simp [ih g3 p l2 (by omega) hw]

/-- What a successful walk returns: a list from the current key to the start
key in which each key is followed by its parent, and whose number of links
leads from the current key to the start key. -/
theorem backtrackWalk_spec (pm : ParentMap) (s : OcTreeKey) :
    ∀ (f : Nat) (k : OcTreeKey) (l : List OcTreeKey), backtrackWalk pm s f k = some l →
      l.head? = some k ∧ l.getLast? = some s
      ∧ List.Chain' (fun a b => parentKey pm a = some b) l
      ∧ parentIter pm (l.length - 1) k = some s ∧ l.length ≤ f + 1 := by
  intro f
  induction f with
  | zero =>
    intro k l h
    rcases backtrackWalk_cases pm s k 0 l h with ⟨rfl, rfl⟩ | ⟨_, g2, _, _, hf, _⟩
    · simp [parentIter]
    · omega
  | succ f ih =>
    intro k l h
    rcases backtrackWalk_cases pm s k (f + 1) l h with ⟨rfl, rfl⟩ | ⟨hk, g2, p, l2, hf, hp, hw, rfl⟩
    · simp [parentIter]
    · have hg2 : g2 = f := by omega
      subst hg2
      obtain ⟨hh, hl, hc, hi, hlen⟩ := ih p l2 hw
      cases l2 with
      | nil => simp at hh
      | cons q l3 =>
        have hq : q = p := by simpa using hh
        subst hq
        refine ⟨rfl, ?_, ?_, ?_, ?_⟩
        · rw [List.getLast?_cons_cons]; exact hl
        · exact List.Chain'.cons hp hc
        · simpa [parentIter, hp] using hi
        · simp only [List.length_cons] at hlen ⊢; omega

/-- A successful walk needs no more fuel than the links it follows. -/
theorem backtrackWalk_exact (pm : ParentMap) (s : OcTreeKey) :
    ∀ (f : Nat) (k : OcTreeKey) (l : List OcTreeKey), backtrackWalk pm s f k = some l →
      backtrackWalk pm s (l.length - 1) k = some l := by
  intro f
  induction f with
  | zero =>
    intro k l h
    rcases backtrackWalk_cases pm s k 0 l h with ⟨rfl, rfl⟩ | ⟨_, g2, _, _, hf, _⟩
    · exact backtrackWalk_start pm k _
    · omega
  | succ f ih =>
    intro k l h
    rcases backtrackWalk_cases pm s k (f + 1) l h with ⟨rfl, rfl⟩ | ⟨hk, g2, p, l2, hf, hp, hw, rfl⟩
    · exact backtrackWalk_start pm k _
    · have hg2 : g2 = f := by omega
      subst hg2
      have h2 := ih p l2 hw
      have hpos : 0 < l2.length := by
        have := (backtrackWalk_spec pm s _ p l2 hw).1
        cases l2 with
        | nil => simp at this
        | cons _ _ => simp
      have hlen : (k :: l2).length - 1 = (l2.length - 1) + 1 := by
        simp only [List.length_cons]; omega
      rw [hlen, backtrackWalk_step pm s k _ hk, hp]
      simp [h2]

/-- From every key of a successful walk the walk succeeds too, with a result
that is no longer. -/
theorem backtrackWalk_mem (pm : ParentMap) (s : OcTreeKey) :
    ∀ (f : Nat) (k : OcTreeKey) (l : List OcTreeKey), backtrackWalk pm s f k = some l →
      ∀ x ∈ l, ∃ l2, backtrackWalk pm s f x = some l2 ∧ l2.length ≤ l.length := by
  intro f
  induction f with
  | zero =>
    intro k l h x hx
    rcases backtrackWalk_cases pm s k 0 l h with ⟨rfl, rfl⟩ | ⟨_, g2, _, _, hf, _⟩
    · have : x = k := by simpa using hx
      subst this
      exact ⟨[x], h, le_refl _⟩
    · omega
  | succ f ih =>
    intro k l h x hx
    rcases backtrackWalk_cases pm s k (f + 1) l h with ⟨rfl, rfl⟩ | ⟨hk, g2, p, l2, hf, hp, hw, rfl⟩
    · have : x = k := by simpa using hx
      subst this
      exact ⟨[x], h, le_refl _⟩
    · have hg2 : g2 = f := by omega
      subst hg2
      rcases List.mem_cons.1 hx with rfl | hx2
      · exact ⟨x :: l2, h, le_refl _⟩
      · obtain ⟨l3, hl3, hlen⟩ := ih p l2 hw x hx2
        refine ⟨l3, backtrackWalk_mono pm s g2 (g2 + 1) x l3 (by omega) hl3, ?_⟩
        simp only [List.length_cons]; omega

/-- A successful walk passes no key twice. -/
theorem backtrackWalk_nodup (pm : ParentMap) (s : OcTreeKey) :
    ∀ (f : Nat) (k : OcTreeKey) (l : List OcTreeKey), backtrackWalk pm s f k = some l →
      l.Nodup := by
  intro f
  induction f with
  | zero =>
    intro k l h
    rcases backtrackWalk_cases pm s k 0 l h with ⟨rfl, rfl⟩ | ⟨_, g2, _, _, hf, _⟩
    · simp
    · omega
  | succ f ih =>
    intro k l h
    rcases backtrackWalk_cases pm s k (f + 1) l h with ⟨rfl, rfl⟩ | ⟨hk, g2, p, l2, hf, hp, hw, rfl⟩
    · simp
    · have hg2 : g2 = f := by omega
      subst hg2
      refine List.nodup_cons.2 ⟨?_, ih p l2 hw⟩
      intro hmem
      obtain ⟨l3, hl3, hlen⟩ := backtrackWalk_mem pm s g2 p l2 hw k hmem
      have h4 := backtrackWalk_mono pm s g2 (g2 + 1) k l3 (by omega) hl3
      rw [h] at h4
      have : l3 = k :: l2 := (Option.some.inj h4).symm
      rw [this] at hlen
      simp only [List.length_cons] at hlen
      omega

/-- Every key of a successful walk but the last is a child key of the map. -/
theorem backtrackWalk_dom (pm : ParentMap) (s : OcTreeKey) :
    ∀ (f : Nat) (k : OcTreeKey) (l : List OcTreeKey), backtrackWalk pm s f k = some l →
      ∀ x ∈ l.dropLast, x ∈ pm.map (fun e => e.1.key) := by
  intro f
  induction f with
  | zero =>
    intro k l h x hx
    rcases backtrackWalk_cases pm s k 0 l h with ⟨rfl, rfl⟩ | ⟨_, g2, _, _, hf, _⟩
    · simp at hx
    · omega
  | succ f ih =>
    intro k l h x hx
    rcases backtrackWalk_cases pm s k (f + 1) l h with ⟨rfl, rfl⟩ | ⟨hk, g2, p, l2, hf, hp, hw, rfl⟩
    · simp at hx
    · have hg2 : g2 = f := by omega
      subst hg2
      have hne : l2 ≠ [] := by
        have := (backtrackWalk_spec pm s g2 p l2 hw).1
        intro hnil
        rw [hnil] at this
        simp at this
      rw [List.dropLast_cons_of_ne_nil hne] at hx
      rcases List.mem_cons.1 hx with rfl | hx2
      · exact parentKey_dom pm x p hp
      · exact ih p l2 hw x hx2

/-- A successful walk follows at most as many links as the map has entries. -/
theorem backtrackWalk_length (pm : ParentMap) (s : OcTreeKey) (f : Nat) (k : OcTreeKey)
    (l : List OcTreeKey) (h : backtrackWalk pm s f k = some l) : l.length - 1 ≤ pm.length := by
  have hnd : l.dropLast.Nodup := (backtrackWalk_nodup pm s f k l h).sublist (List.dropLast_sublist l)
  have hsub : l.dropLast ⊆ pm.map (fun e => e.1.key) := backtrackWalk_dom pm s f k l h
  have := (hnd.subperm hsub).length_le
  simpa using this

/-- A chain of parent links that reaches the start key makes the walk succeed
when given that many links. -/
theorem backtrackWalk_of_iter (pm : ParentMap) (s : OcTreeKey) :
    ∀ (n : Nat) (k : OcTreeKey), parentIter pm n k = some s →
      ∃ l, backtrackWalk pm s n k = some l := by
  intro n
  induction n with
  | zero =>
    intro k h
    have : k = s := by simpa [parentIter] using h
    subst this
    exact ⟨[k], backtrackWalk_start pm k 0⟩
  | succ n ih =>
    intro k h
    by_cases hk : k = s
    · subst hk
      exact ⟨[k], backtrackWalk_start pm k _⟩
    · rw [parentIter] at h
      cases hp : parentKey pm k with
      | none => simp [hp] at h
      | some p =>
        rw [hp] at h
        obtain ⟨l, hl⟩ := ih p (by simpa using h)
        exact ⟨k :: l, by rw [backtrackWalk_step pm s k n hk, hp]; simp [hl]⟩

/-- The walk of `backtrackPathKeys`, bounded by the number of map entries,
succeeds whenever some chain of parent links from the terminal key reaches the
start key. -/
theorem backtrackWalk_total (pm : ParentMap) (s k : OcTreeKey) (n : Nat)
    (h : parentIter pm n k = some s) : ∃ l, backtrackWalk pm s pm.length k = some l := by
  obtain ⟨l, hl⟩ := backtrackWalk_of_iter pm s n k h
  have h1 := backtrackWalk_exact pm s n k l hl
  have h2 := backtrackWalk_length pm s n k l hl
  exact ⟨l, backtrackWalk_mono pm s _ _ k l h2 h1⟩

/-- C7: if following parent links from the end key reaches the start key,
`backtrackPathKeys` returns a key sequence that starts with the start key,
ends with the end key, and in which each key is the recorded parent of the
next; if no chain from the end key reaches the start key it returns the empty
sequence. -/
theorem backtrackPathKeys_spec (parent_map : ParentMap) (start endNode : Node) :
    ((∃ n, parentIter parent_map n endNode.key = some start.key) →
      (backtrackPathKeys start endNode parent_map).head? = some start.key
      ∧ (backtrackPathKeys start endNode parent_map).getLast? = some endNode.key
      ∧ List.Chain' (fun a b => parentKey parent_map b = some a)
          (backtrackPathKeys start endNode parent_map))
    ∧ ((¬ ∃ n, parentIter parent_map n endNode.key = some start.key) →
      backtrackPathKeys start endNode parent_map = []) := by
  constructor
  · rintro ⟨n, hn⟩
    obtain ⟨l, hl⟩ := backtrackWalk_total parent_map start.key endNode.key n hn
    obtain ⟨hh, hlast, hc, _, _⟩ := backtrackWalk_spec parent_map start.key _ _ l hl
    have hres : backtrackPathKeys start endNode parent_map = l.reverse := by
      simp [backtrackPathKeys, hl]
    rw [hres]
    refine ⟨by simpa using hlast, by simpa using hh, ?_⟩
    rw [List.chain'_reverse]
    exact hc
  · intro hno
    cases hw : backtrackWalk parent_map start.key parent_map.length endNode.key with
    | none => simp [backtrackPathKeys, hw]
    | some l =>
      exact absurd ⟨_, (backtrackWalk_spec parent_map start.key _ _ l hw).2.2.2.1⟩ hno

/-- C7 on concrete parent maps: with entries (2,0,0) ← (1,0,0) ← (0,0,0) the
sequence from start (0,0,0) to end (2,0,0) is the three keys in start-first
order; with the two keys (1,0,0) and (2,0,0) recorded as each other's parent
no chain reaches (0,0,0) and the result is empty. -/
theorem backtrackPathKeys_spec_witness :
    backtrackPathKeys ⟨⟨0, 0, 0⟩, 0, 0, 0⟩ ⟨⟨2, 0, 0⟩, 2, 2, 0⟩
        [(⟨⟨2, 0, 0⟩, 2, 2, 0⟩, ⟨⟨1, 0, 0⟩, 2, 1, 1⟩), (⟨⟨1, 0, 0⟩, 2, 1, 1⟩, ⟨⟨0, 0, 0⟩, 2, 0, 2⟩)]
      = [⟨0, 0, 0⟩, ⟨1, 0, 0⟩, ⟨2, 0, 0⟩]
    ∧ (backtrackPathKeys ⟨⟨0, 0, 0⟩, 0, 0, 0⟩ ⟨⟨2, 0, 0⟩, 2, 2, 0⟩
        [(⟨⟨2, 0, 0⟩, 2, 2, 0⟩, ⟨⟨1, 0, 0⟩, 2, 1, 1⟩),
         (⟨⟨1, 0, 0⟩, 2, 1, 1⟩, ⟨⟨0, 0, 0⟩, 2, 0, 2⟩)]).head? = some ⟨0, 0, 0⟩
    ∧ (backtrackPathKeys ⟨⟨0, 0, 0⟩, 0, 0, 0⟩ ⟨⟨2, 0, 0⟩, 2, 2, 0⟩
        [(⟨⟨2, 0, 0⟩, 2, 2, 0⟩, ⟨⟨1, 0, 0⟩, 2, 1, 1⟩),
         (⟨⟨1, 0, 0⟩, 2, 1, 1⟩, ⟨⟨0, 0, 0⟩, 2, 0, 2⟩)]).getLast? = some ⟨2, 0, 0⟩
    ∧ backtrackPathKeys ⟨⟨0, 0, 0⟩, 0, 0, 0⟩ ⟨⟨2, 0, 0⟩, 2, 2, 0⟩
        [(⟨⟨2, 0, 0⟩, 2, 2, 0⟩, ⟨⟨1, 0, 0⟩, 2, 1, 1⟩), (⟨⟨1, 0, 0⟩, 2, 1, 1⟩, ⟨⟨2, 0, 0⟩, 2, 2, 0⟩)]
      = [] :=
  have h := (backtrackPathKeys_spec
      [(⟨⟨2, 0, 0⟩, 2, 2, 0⟩, ⟨⟨1, 0, 0⟩, 2, 1, 1⟩), (⟨⟨1, 0, 0⟩, 2, 1, 1⟩, ⟨⟨0, 0, 0⟩, 2, 0, 2⟩)]
      ⟨⟨0, 0, 0⟩, 0, 0, 0⟩ ⟨⟨2, 0, 0⟩, 2, 2, 0⟩).1 ⟨2, by decide⟩
  ⟨by decide, h.1, h.2.1, by decide⟩

end navigation
